import Mathlib

/-!
# Verification of the colored-subtitles build pipeline

A shallow embedding of `src/build.py` (kosma/colored-subtitles): the
version-to-format resolver, the two-representation translation codec, the
color-rule engine and the pack assembler, together with proofs of the
behavioural properties stated in the specification.

Python strings are modelled as `List Char`; Python dicts as association
lists with unique keys in insertion order, built by `mkDict` (later
bindings to the same key overwrite the value in place, as in Python).
The JSON layer (`json.loads` / `json.dumps`, used for pack formats ≥ 4)
belongs to the Python standard library, not to this repository; following
the specification's structural-equivalence contract for the structured
codec ("exact byte layout not guaranteed, only structural equivalence"),
structured content is modelled as the parsed object itself rather than as
serialized bytes.
-/

set_option maxRecDepth 8000

namespace ColoredSubtitles

/-- Python strings, modelled as lists of characters. -/
abbrev Str := List Char

/-- The static version-to-format table (`pack_format_map`, build.py lines
12-31).  A Python dict literal keeps insertion order; the source writes the
`'1.15': 5` entry twice, which collapses to a single entry. -/
def pack_format_map : List (Str × Nat) := [
  ("1.6".toList, 1),
  ("1.7".toList, 1),
  ("1.8".toList, 1),
  ("1.9".toList, 2),
  ("1.10".toList, 2),
  ("1.11".toList, 3),
  ("1.12".toList, 3),
  ("1.13".toList, 4),
  ("1.14".toList, 4),
  ("1.15".toList, 5),
  ("1.16".toList, 5),
  ("1.16.2".toList, 6),
  ("1.16.5".toList, 6),
  ("1.17".toList, 7),
  ("1.17.1".toList, 7),
  ("1.18".toList, 8),
  ("1.19".toList, 9)]

/-- The fixed color-name → control-code table (`color_codes`, build.py
lines 33-56). -/
def color_codes : List (Str × Str) := [
  ("dark_red".toList, "§4".toList),
  ("red".toList, "§c".toList),
  ("gold".toList, "§6".toList),
  ("yellow".toList, "§e".toList),
  ("dark_green".toList, "§2".toList),
  ("green".toList, "§a".toList),
  ("aqua".toList, "§b".toList),
  ("dark_aqua".toList, "§3".toList),
  ("dark_blue".toList, "§1".toList),
  ("blue".toList, "§9".toList),
  ("light_purple".toList, "§d".toList),
  ("dark_purple".toList, "§5".toList),
  ("white".toList, "§f".toList),
  ("gray".toList, "§7".toList),
  ("dark_gray".toList, "§8".toList),
  ("black".toList, "§0".toList),
  ("reset".toList, "§r".toList),
  ("bold".toList, "§l".toList),
  ("italic".toList, "§o".toList),
  ("underline".toList, "§n".toList),
  ("strike".toList, "§m".toList),
  ("zalgo".toList, "§k".toList)]

/-- The characters stripped by Python's `str.rstrip()`: the full Unicode
whitespace set of `str.isspace()` — ASCII control whitespace U+0009-U+000D,
the separators U+001C-U+001F, space, next-line U+0085, no-break space
U+00A0, and the Unicode space/line/paragraph separators. -/
def pyIsSpace (c : Char) : Bool :=
  [0x09, 0x0a, 0x0b, 0x0c, 0x0d, 0x1c, 0x1d, 0x1e, 0x1f, 0x20,
    0x85, 0xa0, 0x1680, 0x2000, 0x2001, 0x2002, 0x2003, 0x2004, 0x2005,
    0x2006, 0x2007, 0x2008, 0x2009, 0x200a, 0x2028, 0x2029, 0x202f, 0x205f,
    0x3000].contains c.toNat

/-- Python `str.rstrip()`: remove trailing whitespace. -/
def rstrip (s : Str) : Str :=
  (s.reverse.dropWhile pyIsSpace).reverse

/-- Python `str.replace('\r', '')`: remove every carriage return. -/
def removeCR (s : Str) : Str :=
  s.filter (fun c => c != '\r')

/-- Python `str.split(sep)` for a one-character separator: always returns at
least one (possibly empty) piece, one more piece per separator occurrence. -/
def splitOnChar (sep : Char) : Str → List Str
  | [] => [[]]
  | c :: cs =>
    if c = sep then [] :: splitOnChar sep cs
    else
      match splitOnChar sep cs with
      | [] => [[c]]
      | l :: ls => (c :: l) :: ls

/-- Python `line.partition('=')[::2]`: split at the first `'='`, returning
the part before it and the part after it.  A line without `'='` yields the
whole line paired with the empty string (build.py line 134). -/
def partitionEq : Str → Str × Str
  | [] => ([], [])
  | c :: cs =>
    if c = '=' then ([], cs)
    else
      let p := partitionEq cs
      (c :: p.1, p.2)

/-- Assignment `d[k] = v` on a Python dict modelled as an association list
in insertion order: an existing key keeps its position and gets the new
value; a new key is appended. -/
def dictInsert (d : List (Str × Str)) (k v : Str) : List (Str × Str) :=
  if d.any (fun p => p.1 == k) then
    d.map (fun p => if p.1 == k then (k, v) else p)
  else d ++ [(k, v)]

/-- A Python dict built from a sequence of key/value pairs (dict
comprehension / `json.loads` object semantics): later pairs with the same
key overwrite earlier values. -/
def mkDict (ps : List (Str × Str)) : List (Str × Str) :=
  ps.foldl (fun d p => dictInsert d p.1 p.2) []

/-- Python `d[k]` / `d.get(k)` on an association list: the value of the
first entry carrying the key (entries are unique-keyed in any real dict). -/
def dictGet : List (Str × Str) → Str → Option Str
  | [], _ => none
  | p :: d, k => if p.1 = k then some p.2 else dictGet d k

/-- Python `==` on dicts: same keys bound to the same values. -/
def pyDictEq (a b : List (Str × Str)) : Prop :=
  ∀ k : Str, dictGet a k = dictGet b k

/-- Lexicographic comparison of strings by code point, as used by Python's
`sorted` on `str`. -/
def pyStrLe : Str → Str → Bool
  | [], _ => true
  | _ :: _, [] => false
  | a :: as, b :: bs =>
    if a.toNat < b.toNat then true
    else if b.toNat < a.toNat then false
    else pyStrLe as bs

/-- Insert a pair into a key-sorted list of pairs. -/
def insertSorted (p : Str × Str) : List (Str × Str) → List (Str × Str)
  | [] => [p]
  | q :: qs => if pyStrLe p.1 q.1 then p :: q :: qs else q :: insertSorted p qs

/-- `sorted(translation.keys())` (build.py line 142): the entries of the
map ordered by key. -/
def sortPairs (l : List (Str × Str)) : List (Str × Str) :=
  l.foldr insertSorted []

/-- On-disk content of one archive entry.  Structured (JSON) content is
kept as the parsed object, per the specification's structural-equivalence
contract for the JSON codec; legacy content is raw text; the `pack.mcmeta`
metadata entry records the serialized format number and description. -/
inductive Content where
  | structured (obj : List (Str × Str))
  | raw (text : Str)
  | mcmeta (pack_format : Nat) (description : Str)
deriving DecidableEq

/-- The legacy (`pack_format < 4`) branch of `load_language` (build.py
lines 131-134): strip trailing whitespace, drop carriage returns, split
into lines, drop blank lines, split each line at its first `'='`, and build
a dict from the resulting pairs. -/
def legacyLoadStr (contents : Str) : List (Str × Str) :=
  mkDict ((((splitOnChar '\n') (removeCR (rstrip contents))).filter
    (fun l => !l.isEmpty)).map partitionEq)

/-- `load_language` (build.py lines 127-134).  Content of the wrong kind
for the chosen format (raw text where JSON is expected, or vice versa) has
no decoding and yields `none`. -/
def load_language (contents : Content) (pack_format : Nat) : Option (List (Str × Str)) :=
  if pack_format ≥ 4 then
    match contents with
    | .structured obj => some (mkDict obj)
    | _ => none
  else
    match contents with
    | .raw text => some (legacyLoadStr text)
    | _ => none

/-- One legacy line `'%s=%s\n' % (key, value)` joined over the keys in
sorted order (build.py line 142). -/
def joinKV (entries : List (Str × Str)) : Str :=
  (entries.map (fun p => p.1 ++ '=' :: (p.2 ++ ['\n']))).flatten

/-- The legacy branch of `dump_language`. -/
def legacyDumpStr (translation : List (Str × Str)) : Str :=
  joinKV (sortPairs translation)

/-- `dump_language` (build.py lines 137-142). -/
def dump_language (translation : List (Str × Str)) (pack_format : Nat) : Content :=
  if pack_format ≥ 4 then .structured translation
  else .raw (legacyDumpStr translation)

/-- The format-guessing loop of `generate_pack` (build.py lines 148-150):
scan the table in order and keep the value of every entry whose version
prefix starts the requested version; `none` models the unbound
`pack_format` variable (a fatal `NameError` at line 151). -/
def resolve_pack_format (version : Str) : Option Nat :=
  pack_format_map.foldl
    (fun acc e => if e.1.isPrefixOf version then some e.2 else acc) none

/-- The inner rule scan of `generate_pack` (build.py lines 173-177): start
with no color and overwrite it at every rule whose prefix starts the key —
the last matching rule wins. -/
def select_color (colors : List (Str × Str)) (key : Str) : Option Str :=
  colors.foldl (fun acc r => if r.1.isPrefixOf key then some r.2 else acc) none

/-- The per-translation-map body of `generate_pack`'s mapping loop
(build.py lines 172-183): for each key select a color; if one was selected,
look it up in `color_codes` (a missing name is the fatal `KeyError` of
line 180, modelled as `Except.error` carrying the color name) and prepend
the code to the value; otherwise keep the value and, if the key carries the
`subtitles.` prefix, record it as unhandled. -/
def apply_colors (colors : List (Str × Str)) :
    List (Str × Str) → Except Str (List (Str × Str) × List Str)
  | [] => .ok ([], [])
  | (key, value) :: rest =>
    match select_color colors key with
    | some c =>
      match dictGet color_codes c with
      | some code =>
        match apply_colors colors rest with
        | .ok (m, u) => .ok ((key, code ++ value) :: m, u)
        | .error e => .error e
      | none => .error c
    | none =>
      match apply_colors colors rest with
      | .ok (m, u) =>
        if ("subtitles.".toList).isPrefixOf key then .ok ((key, value) :: m, key :: u)
        else .ok ((key, value) :: m, u)
      | .error e => .error e

/-- A fatal condition of `generate_pack`. -/
inductive BuildError where
  | unresolvedVersion
  | badAsset (path : Str)
  | unknownColor (color : Str)
deriving DecidableEq

/-- The per-asset loop of `generate_pack` (build.py lines 167-185): load
each language file, transform it, and write the re-encoded result under
`assets/`.  Returns the archive entries written, the unhandled keys
collected, and the error that aborted the run, if any: on an error, the
entries of the assets already processed stand, and nothing of the failing
or later assets is written. -/
def processLanguages (pack_format : Nat) (colors : List (Str × Str)) :
    List (Str × Content) → List (Str × Content) × List Str × Option BuildError
  | [] => ([], [], none)
  | (path, content) :: rest =>
    match load_language content pack_format with
    | none => ([], [], some (.badAsset path))
    | some translation =>
      match apply_colors colors translation with
      | .error c => ([], [], some (.unknownColor c))
      | .ok tu =>
        let r := processLanguages pack_format colors rest
        (("assets/".toList ++ path, dump_language tu.1 pack_format) :: r.1,
          tu.2 ++ r.2.1, r.2.2)

/-- `generate_pack` (build.py lines 145-188): resolve the pack format (a
version with no matching table entry is fatal before anything is written),
write the `pack.mcmeta` metadata entry into the freshly created archive,
then process the language assets in order.  The result is the list of
archive entries written up to the first fatal error (if any), paired with
that error. -/
def generate_pack (version : Str) (languages : List (Str × Content))
    (colors : List (Str × Str)) : List (Str × Content) × Option BuildError :=
  match resolve_pack_format version with
  | none => ([], some .unresolvedVersion)
  | some pack_format =>
    let r := processLanguages pack_format colors languages
    (("pack.mcmeta".toList, Content.mcmeta pack_format ("By Kosmolot".toList)) :: r.1,
      r.2.2)

/-- `true` when the string does not end with a whitespace character. -/
def endsOk (v : Str) : Bool :=
  match v.reverse with
  | [] => true
  | c :: _ => !pyIsSpace c

/-- A key survives the legacy key-value syntax: it contains no separator,
no line break and no carriage return. -/
abbrev wfKey (k : Str) : Prop :=
  '=' ∉ k ∧ '\n' ∉ k ∧ '\r' ∉ k

/-- A value survives the legacy key-value syntax: no line break, no
carriage return, and no trailing whitespace (which `rstrip` would eat from
the final line of the file). -/
abbrev wfVal (v : Str) : Prop :=
  '\n' ∉ v ∧ '\r' ∉ v ∧ endsOk v = true

/-- A translation map that the legacy codec round-trips: unique keys (as in
any Python dict) and legacy-safe keys and values. -/
abbrev wfLegacy (m : List (Str × Str)) : Prop :=
  (m.map Prod.fst).Nodup ∧ ∀ p ∈ m, wfKey p.1 ∧ wfVal p.2

/-! ## Generic helper lemmas -/

theorem find?_append_some {α : Type} {p : α → Bool} {l₁ : List α} {a : α}
    (l₂ : List α) (h : l₁.find? p = some a) : (l₁ ++ l₂).find? p = some a := by
  induction l₁ with
  | nil => simp [List.find?] at h
  | cons x xs ih =>
    rw [List.cons_append]
    by_cases hx : p x
    · simp only [List.find?_cons, hx, cond_true] at h ⊢
      exact h
    · simp only [List.find?_cons, hx, cond_false] at h ⊢
      exact ih h

theorem find?_append_none {α : Type} {p : α → Bool} {l₁ : List α}
    (l₂ : List α) (h : l₁.find? p = none) : (l₁ ++ l₂).find? p = l₂.find? p := by
  induction l₁ with
  | nil => rfl
  | cons x xs ih =>
    rw [List.cons_append]
    by_cases hx : p x
    · simp only [List.find?_cons, hx, cond_true] at h
      cases h
    · simp only [List.find?_cons, hx, cond_false] at h ⊢
      exact ih h

/-- A left fold that overwrites its accumulator at every element satisfying
`p` ends up holding the image of the last such element. -/
theorem foldl_overwrite {α β : Type} (p : α → Bool) (f : α → β) :
    ∀ (l : List α) (acc : Option β),
      l.foldl (fun a x => if p x then some (f x) else a) acc
        = (l.reverse.find? p).elim acc (fun x => some (f x)) := by
  intro l
  induction l with
  | nil => intro acc; rfl
  | cons x xs ih =>
    intro acc
    rw [List.foldl_cons, ih, List.reverse_cons]
    cases hf : xs.reverse.find? p with
    | some y => rw [find?_append_some [x] hf]; rfl
    | none =>
      rw [find?_append_none [x] hf]
      by_cases hx : p x <;> simp [List.find?, hx]

/-- The rule scan keeps the color of the last rule whose prefix starts the
key. -/
theorem select_color_eq_find_last (colors : List (Str × Str)) (key : Str) :
    select_color colors key
      = (colors.reverse.find? (fun r => r.1.isPrefixOf key)).map Prod.snd := by
  rw [show select_color colors key
      = (colors.reverse.find? (fun r => r.1.isPrefixOf key)).elim none
          (fun x => some x.2) from foldl_overwrite _ _ colors none]
  cases colors.reverse.find? (fun r => r.1.isPrefixOf key) <;> rfl

/-- The format-guessing loop keeps the format of the last table entry whose
version prefix starts the version. -/
theorem resolve_pack_format_eq_find_last (version : Str) :
    resolve_pack_format version
      = (pack_format_map.reverse.find? (fun e => e.1.isPrefixOf version)).map Prod.snd := by
  rw [show resolve_pack_format version
      = (pack_format_map.reverse.find? (fun e => e.1.isPrefixOf version)).elim none
          (fun x => some x.2) from foldl_overwrite _ _ pack_format_map none]
  cases pack_format_map.reverse.find? (fun e => e.1.isPrefixOf version) <;> rfl

/-! ## Claims C1, C4, C5 -/

/-- **C1**: for every ordered rule list and every key, the color-rule
engine selects the color of the LAST rule in sequence order whose prefix is
a literal string-prefix of the key (the scan does not stop at the first
match); in particular, the rules
`[("subtitles.", "white"), ("subtitles.block.", "red")]` applied to the key
`"subtitles.block.anvil.land"` resolve to `"red"`, not `"white"`. -/
theorem select_color_last_match_wins :
    (∀ (colors : List (Str × Str)) (key : Str),
      select_color colors key
        = (colors.reverse.find? (fun r => r.1.isPrefixOf key)).map Prod.snd) ∧
    select_color
      [("subtitles.".toList, "white".toList), ("subtitles.block.".toList, "red".toList)]
      ("subtitles.block.anvil.land".toList) = some ("red".toList) :=
  ⟨select_color_eq_find_last, by decide⟩

/-- **C4**: the version-to-format resolver returns the format code of the
LAST matching entry in table insertion order; `"1.16.5"` is matched by both
the `"1.16"` entry (format 5) and the `"1.16.5"` entry (format 6) and
resolves to 6. -/
theorem resolve_pack_format_last_match :
    (∀ version : Str,
      resolve_pack_format version
        = (pack_format_map.reverse.find? (fun e => e.1.isPrefixOf version)).map Prod.snd) ∧
    ("1.16".toList, 5) ∈ pack_format_map ∧
    ("1.16.5".toList, 6) ∈ pack_format_map ∧
    ("1.16".toList).isPrefixOf ("1.16.5".toList) = true ∧
    ("1.16.5".toList).isPrefixOf ("1.16.5".toList) = true ∧
    resolve_pack_format ("1.16.5".toList) = some 6 :=
  ⟨resolve_pack_format_eq_find_last, by decide, by decide, by decide, by decide, by decide⟩

/-- **C5** (counterexample to the claim's example): the version string
`"1.99"` is not unmatched — it starts with the table entry `"1.9"` — so it
resolves to pack format 2 and pack generation for it does not fail. -/
theorem resolve_1_99_not_fatal_cex :
    resolve_pack_format ("1.99".toList) = some 2 ∧
    (generate_pack ("1.99".toList) [] []).2 = none := by
  exact ⟨by decide, by decide⟩

/-- **C5** (amended): a version string matched by no entry of the
version-to-format table resolves to no pack format, and pack generation for
it fails fatally with nothing written; `"1.99"` is not such a version (it
matches the `"1.9"` entry), but for example `"2.0"` is. -/
theorem unmatched_version_fatal :
    (∀ version : Str,
      (∀ e ∈ pack_format_map, e.1.isPrefixOf version = false) →
      resolve_pack_format version = none ∧
      ∀ langs colors, generate_pack version langs colors
        = ([], some .unresolvedVersion)) ∧
    resolve_pack_format ("2.0".toList) = none := by
  constructor
  · intro version h
    have hr : resolve_pack_format version = none := by
      rw [resolve_pack_format_eq_find_last]
      have : pack_format_map.reverse.find? (fun e => e.1.isPrefixOf version) = none := by
        rw [List.find?_eq_none]
        intro x hx
        simp [h x (List.mem_reverse.mp hx)]
      rw [this]; rfl
    refine ⟨hr, fun langs colors => ?_⟩
    rw [generate_pack, hr]
  · decide

/-- Witness for **C5**: `"2.0"` matches no table entry; resolution yields
no format and pack generation fails fatally with nothing written. -/
theorem unmatched_version_fatal_witness :
    resolve_pack_format ("2.0".toList) = none ∧
    generate_pack ("2.0".toList) [] [] = ([], some .unresolvedVersion) :=
  ⟨(unmatched_version_fatal.1 ("2.0".toList) (by decide)).1,
    (unmatched_version_fatal.1 ("2.0".toList) (by decide)).2 [] []⟩

/-! ## Dictionary lemmas -/

@[simp] theorem dictGet_nil (k : Str) : dictGet [] k = none := rfl

@[simp] theorem dictGet_cons (p : Str × Str) (d : List (Str × Str)) (k : Str) :
    dictGet (p :: d) k = if p.1 = k then some p.2 else dictGet d k := rfl

/-- Updating the entries keyed `k'` in place does not change lookups of any
other key. -/
theorem dictGet_map_update (d : List (Str × Str)) (k' v k : Str) (hk : k ≠ k') :
    dictGet (d.map (fun p => if p.1 == k' then (k', v) else p)) k = dictGet d k := by
  induction d with
  | nil => rfl
  | cons q d ih =>
    by_cases hq : q.1 = k'
    · simp only [List.map_cons]
      rw [if_pos (by simp [hq] : ((q.1 == k') = true))]
      simp only [dictGet_cons]
      rw [if_neg (Ne.symm hk), if_neg (by rw [hq]; exact Ne.symm hk)]
      exact ih
    · simp only [List.map_cons]
      rw [if_neg (by simp [hq] : ¬ ((q.1 == k') = true))]
      simp only [dictGet_cons]
      by_cases hqk : q.1 = k
      · simp [hqk]
      · rw [if_neg hqk, if_neg hqk]
        exact ih

/-- `dictInsert` behaves as assignment: the inserted key now yields the new
value and every other key is unaffected. -/
theorem dictGet_dictInsert (d : List (Str × Str)) (k' v k : Str) :
    dictGet (dictInsert d k' v) k = if k = k' then some v else dictGet d k := by
  induction d with
  | nil =>
    by_cases h : k = k'
    · subst h; simp [dictInsert]
    · simp [dictInsert, h, Ne.symm h]
  | cons q d ih =>
    rw [dictInsert]
    by_cases hq : q.1 = k'
    · rw [if_pos (by simp [List.any_cons, hq])]
      simp only [List.map_cons]
      rw [if_pos (by simp [hq] : ((q.1 == k') = true))]
      by_cases hk : k = k'
      · subst hk; simp
      · simp only [dictGet_cons]
        rw [if_neg (Ne.symm hk), dictGet_map_update d k' v k hk, if_neg hk,
          if_neg (by rw [hq]; exact Ne.symm hk)]
    · rw [List.any_cons]
      by_cases hmem : (d.any fun p => p.1 == k') = true
      · rw [if_pos (by simp [hmem])]
        simp only [List.map_cons]
        rw [if_neg (by simp [hq])]
        simp only [dictGet_cons]
        by_cases hqk : q.1 = k
        · have hkk : k ≠ k' := by rw [← hqk]; exact hq
          simp [hqk, hkk]
        · simp only [if_neg hqk]
          have hd : dictInsert d k' v
              = d.map (fun p => if p.1 == k' then (k', v) else p) := by
            rw [dictInsert, if_pos hmem]
          rw [← hd, ih]
      · rw [if_neg (by simp [hq, hmem])]
        simp only [List.cons_append, dictGet_cons]
        by_cases hqk : q.1 = k
        · have hkk : k ≠ k' := by rw [← hqk]; exact hq
          simp [hqk, hkk]
        · simp only [if_neg hqk]
          have hd : dictInsert d k' v = d ++ [(k', v)] := by
            rw [dictInsert, if_neg hmem]
          rw [← hd, ih]

/-- Folding `dictInsert` over a pair list: a key bound anywhere in the list
yields the value of its LAST binding; an unbound key falls through to the
accumulator. -/
theorem dictGet_foldl_insert (ps : List (Str × Str)) :
    ∀ (acc : List (Str × Str)) (k : Str),
      dictGet (ps.foldl (fun d p => dictInsert d p.1 p.2) acc) k
        = (ps.reverse.find? (fun p => p.1 == k)).elim (dictGet acc k)
            (fun p => some p.2) := by
  induction ps with
  | nil => intro acc k; rfl
  | cons q ps ih =>
    intro acc k
    rw [List.foldl_cons, ih, List.reverse_cons]
    cases hf : ps.reverse.find? (fun p => p.1 == k) with
    | some y => rw [find?_append_some [q] hf]; rfl
    | none =>
      rw [find?_append_none [q] hf]
      by_cases hq : q.1 = k
      · have hb : (q.1 == k) = true := by simp [hq]
        rw [show List.find? (fun p => p.1 == k) [q] = some q by
          simp [List.find?_cons, hb]]
        rw [dictGet_dictInsert, if_pos hq.symm]
        rfl
      · have hb : (q.1 == k) = false := by simp [hq]
        rw [show List.find? (fun p => p.1 == k) [q] = none by
          simp [List.find?_cons, hb]]
        rw [dictGet_dictInsert, if_neg (fun h => hq h.symm)]

/-- A key bound several times in the input of `mkDict` ends up bound to the
value of its LAST binding. -/
theorem dictGet_mkDict (ps : List (Str × Str)) (k : Str) :
    dictGet (mkDict ps) k
      = (ps.reverse.find? (fun p => p.1 == k)).map Prod.snd := by
  rw [show dictGet (mkDict ps) k
      = (ps.reverse.find? (fun p => p.1 == k)).elim (dictGet [] k)
          (fun p => some p.2) from dictGet_foldl_insert ps [] k]
  cases ps.reverse.find? (fun p => p.1 == k) <;> rfl

theorem foldl_insert_disjoint (ps : List (Str × Str)) :
    ∀ acc : List (Str × Str), (ps.map Prod.fst).Nodup →
      (∀ x ∈ ps, ∀ y ∈ acc, y.1 ≠ x.1) →
      ps.foldl (fun d p => dictInsert d p.1 p.2) acc = acc ++ ps := by
  induction ps with
  | nil => intro acc _ _; simp
  | cons q ps ih =>
    intro acc hnd hdis
    rw [List.map_cons, List.nodup_cons] at hnd
    rw [List.foldl_cons]
    have hnin : ¬ ((acc.any fun p => p.1 == q.1) = true) := by
      simp only [List.any_eq_true, beq_iff_eq, not_exists]
      intro x
      rintro ⟨hx, hxq⟩
      exact hdis q (List.mem_cons_self q ps) x hx hxq
    have hins : dictInsert acc q.1 q.2 = acc ++ [(q.1, q.2)] := by
      rw [dictInsert, if_neg hnin]
    rw [hins, ih (acc ++ [(q.1, q.2)]) hnd.2 ?dis]
    · simp
    case dis =>
      intro x hx y hy
      rcases List.mem_append.mp hy with hy | hy
      · exact hdis x (List.mem_cons_of_mem q hx) y hy
      · have hyq : y = (q.1, q.2) := by simpa using hy
        rw [hyq]
        intro hcontra
        exact hnd.1 (hcontra ▸ List.mem_map_of_mem Prod.fst hx)

/-- Building a dict from pairs with pairwise distinct keys reproduces the
pairs unchanged. -/
theorem mkDict_eq_self {m : List (Str × Str)} (h : (m.map Prod.fst).Nodup) :
    mkDict m = m := by
  have hd := foldl_insert_disjoint m [] h (by intro x _ y hy; cases hy)
  simpa [mkDict] using hd

theorem dictGet_eq_none_iff (l : List (Str × Str)) (k : Str) :
    dictGet l k = none ↔ ∀ p ∈ l, p.1 ≠ k := by
  induction l with
  | nil => simp
  | cons q l ih =>
    rw [List.forall_mem_cons]
    by_cases hq : q.1 = k
    · simp [hq]
    · simp [hq, ih]

theorem dictGet_eq_some_iff {l : List (Str × Str)} (h : (l.map Prod.fst).Nodup)
    {k v : Str} : dictGet l k = some v ↔ (k, v) ∈ l := by
  induction l with
  | nil => simp
  | cons q l ih =>
    rw [List.map_cons, List.nodup_cons] at h
    rw [dictGet_cons, List.mem_cons]
    by_cases hq : q.1 = k
    · rw [if_pos hq]
      constructor
      · intro hv
        have hv' : q.2 = v := Option.some.inj hv
        left
        rw [← hq, ← hv']
      · rintro (hv | hv)
        · rw [← hv]
        · exact absurd (hq ▸ List.mem_map_of_mem Prod.fst hv) h.1
    · rw [if_neg hq, ih h.2]
      constructor
      · exact Or.inr
      · rintro (hv | hv)
        · exact absurd (by rw [← hv]) hq
        · exact hv

/-- Looking up a key in a unique-keyed dict is invariant under permutation
of the entries: this is exactly Python's order-insensitive `==` on dicts. -/
theorem dictGet_perm {a b : List (Str × Str)} (hp : a.Perm b)
    (ha : (a.map Prod.fst).Nodup) (k : Str) : dictGet a k = dictGet b k := by
  have hb : (b.map Prod.fst).Nodup := ((hp.map Prod.fst).nodup_iff).mp ha
  cases h1 : dictGet a k with
  | none =>
    rw [dictGet_eq_none_iff] at h1
    have : dictGet b k = none := by
      rw [dictGet_eq_none_iff]
      intro p hpb
      exact h1 p (hp.mem_iff.mpr hpb)
    rw [this]
  | some v =>
    rw [dictGet_eq_some_iff ha] at h1
    exact ((dictGet_eq_some_iff hb).mpr (hp.mem_iff.mp h1)).symm

theorem insertSorted_perm (p : Str × Str) (l : List (Str × Str)) :
    (insertSorted p l).Perm (p :: l) := by
  induction l with
  | nil => exact List.Perm.refl _
  | cons q l ih =>
    rw [insertSorted]
    by_cases h : pyStrLe p.1 q.1
    · rw [if_pos h]
    · rw [if_neg h]
      exact (ih.cons q).trans (List.Perm.swap p q l)

/-- Sorting the entries of a map by key permutes them. -/
theorem sortPairs_perm (l : List (Str × Str)) : (sortPairs l).Perm l := by
  induction l with
  | nil => exact List.Perm.refl _
  | cons p l ih =>
    rw [sortPairs, List.foldr_cons]
    exact (insertSorted_perm p (sortPairs l)).trans (ih.cons p)

/-! ## Claim C2 -/

/-- **C2**: for every pack format at or above the structured threshold
(`f ≥ 4`) and every translation map (unique keys, as in any Python dict),
decoding the encoding round-trips exactly:
`load_language (dump_language m f) f = m`. -/
theorem structured_roundtrip (f : Nat) (m : List (Str × Str))
    (hf : 4 ≤ f) (hnd : (m.map Prod.fst).Nodup) :
    load_language (dump_language m f) f = some m := by
  rw [dump_language, if_pos hf, load_language, if_pos hf]
  show some (mkDict m) = some m
  rw [mkDict_eq_self hnd]

/-- Witness for **C2** at pack format 9 and a one-entry map. -/
theorem structured_roundtrip_witness :
    (4 ≤ 9 ∧ (([(("subtitles.ambient.cave").toList, "x".toList)]).map Prod.fst).Nodup) ∧
    load_language (dump_language [("subtitles.ambient.cave".toList, "x".toList)] 9) 9
      = some [("subtitles.ambient.cave".toList, "x".toList)] :=
  ⟨⟨by decide, by decide⟩, structured_roundtrip 9 _ (by decide) (by decide)⟩

/-! ## String lemmas for the legacy codec -/

theorem dropWhile_append_of_ne_nil {α : Type} (p : α → Bool) (l₁ l₂ : List α)
    (h : l₁.dropWhile p ≠ []) :
    (l₁ ++ l₂).dropWhile p = l₁.dropWhile p ++ l₂ := by
  induction l₁ with
  | nil => simp [List.dropWhile] at h
  | cons a l ih =>
    by_cases ha : p a
    · rw [List.cons_append, List.dropWhile_cons, if_pos ha,
        List.dropWhile_cons, if_pos ha]
      rw [List.dropWhile_cons, if_pos ha] at h
      exact ih h
    · rw [List.cons_append, List.dropWhile_cons, if_neg ha,
        List.dropWhile_cons, if_neg ha, List.cons_append]

theorem dropWhile_ne_nil_of_mem {α : Type} (p : α → Bool) {l : List α} {x : α}
    (hx : x ∈ l) (hpx : p x = false) : l.dropWhile p ≠ [] := by
  induction l with
  | nil => cases hx
  | cons a l ih =>
    by_cases ha : p a
    · rw [List.dropWhile_cons, if_pos ha]
      rcases List.mem_cons.mp hx with rfl | hx'
      · rw [ha] at hpx; cases hpx
      · exact ih hx'
    · rw [List.dropWhile_cons, if_neg ha]
      exact List.cons_ne_nil a l

/-- `rstrip` leaves a string alone when it does not end in whitespace. -/
theorem rstrip_of_endsOk {l : Str} (h : endsOk l = true) : rstrip l = l := by
  rw [rstrip]
  cases hr : l.reverse with
  | nil =>
    have hl : l = [] := List.reverse_eq_nil_iff.mp hr
    subst hl
    rfl
  | cons c t =>
    have h' : (!pyIsSpace c) = true := by rw [endsOk, hr] at h; exact h
    have h'' : pyIsSpace c = false := by simpa using h'
    rw [List.dropWhile_cons, if_neg (by simp [h''])]
    rw [← hr, List.reverse_reverse]

/-- `rstrip` of a line followed by its newline gives back the line, when
the line does not end in whitespace. -/
theorem rstrip_append_newline {y : Str} (hy : endsOk y = true) :
    rstrip (y ++ ['\n']) = y := by
  rw [rstrip, List.reverse_append]
  simp only [List.reverse_cons, List.reverse_nil, List.nil_append,
    List.singleton_append]
  rw [List.dropWhile_cons, if_pos (by decide : pyIsSpace '\n' = true)]
  exact rstrip_of_endsOk hy

/-- `rstrip` only touches the end of the string: a right part containing a
non-whitespace character shields everything to its left. -/
theorem rstrip_append {a : Str} (b : Str) (hx : ∃ c ∈ b, pyIsSpace c = false) :
    rstrip (a ++ b) = a ++ rstrip b := by
  obtain ⟨c, hc, hcs⟩ := hx
  rw [rstrip, rstrip, List.reverse_append]
  rw [dropWhile_append_of_ne_nil _ _ _
    (dropWhile_ne_nil_of_mem pyIsSpace (List.mem_reverse.mpr hc) hcs)]
  rw [List.reverse_append, List.reverse_reverse]

theorem removeCR_eq_self {l : Str} (h : '\r' ∉ l) : removeCR l = l := by
  induction l with
  | nil => rfl
  | cons c cs ih =>
    have hc : c ≠ '\r' := fun hcc => h (hcc ▸ List.mem_cons_self c cs)
    have hcs : '\r' ∉ cs := fun hm => h (List.mem_cons_of_mem c hm)
    have := ih hcs
    rw [removeCR] at this ⊢
    rw [List.filter_cons, if_pos (by simp [hc]), this]

theorem removeCR_append_left {a : Str} (b : Str) (h : '\r' ∉ a) :
    removeCR (a ++ b) = a ++ removeCR b := by
  rw [removeCR, List.filter_append]
  rw [show List.filter (fun c => c != '\r') a = a from removeCR_eq_self h]
  rfl

/-- A separator-free string splits into itself alone. -/
theorem splitOnChar_of_not_mem {sep : Char} {l : Str} (h : sep ∉ l) :
    splitOnChar sep l = [l] := by
  induction l with
  | nil => rfl
  | cons c cs ih =>
    have hc : c ≠ sep := fun hcc => h (hcc ▸ List.mem_cons_self c cs)
    have hcs : sep ∉ cs := fun hm => h (List.mem_cons_of_mem c hm)
    rw [splitOnChar, if_neg hc, ih hcs]

/-- Splitting after a separator-free first line. -/
theorem splitOnChar_append_sep {sep : Char} {l : Str} (s : Str) (h : sep ∉ l) :
    splitOnChar sep ((l ++ [sep]) ++ s) = l :: splitOnChar sep s := by
  induction l with
  | nil =>
    simp only [List.nil_append, List.cons_append]
    rw [splitOnChar, if_pos rfl]
  | cons c cs ih =>
    have hc : c ≠ sep := fun hcc => h (hcc ▸ List.mem_cons_self c cs)
    have hcs : sep ∉ cs := fun hm => h (List.mem_cons_of_mem c hm)
    simp only [List.cons_append]
    rw [splitOnChar, if_neg hc]
    rw [show splitOnChar sep (cs ++ [sep] ++ s) = cs :: splitOnChar sep s from by
      simpa using ih hcs]

/-- `partition('=')[::2]` on a well-formed line recovers key and value. -/
theorem partitionEq_append {k : Str} (v : Str) (h : '=' ∉ k) :
    partitionEq (k ++ '=' :: v) = (k, v) := by
  induction k with
  | nil =>
    rw [List.nil_append, partitionEq, if_pos rfl]
  | cons c cs ih =>
    have hc : c ≠ '=' := fun hcc => h (hcc ▸ List.mem_cons_self c cs)
    have hcs : '=' ∉ cs := fun hm => h (List.mem_cons_of_mem c hm)
    rw [List.cons_append, partitionEq]
    rw [if_neg hc, ih hcs]

/-- `partition('=')[::2]` on a line with no `'='` yields the whole line and
an empty value. -/
theorem partitionEq_no_eq {l : Str} (h : '=' ∉ l) : partitionEq l = (l, []) := by
  induction l with
  | nil => rfl
  | cons c cs ih =>
    have hc : c ≠ '=' := fun hcc => h (hcc ▸ List.mem_cons_self c cs)
    have hcs : '=' ∉ cs := fun hm => h (List.mem_cons_of_mem c hm)
    rw [partitionEq, if_neg hc, ih hcs]

theorem not_mem_line {c : Char} {k v : Str} (hk : c ∉ k) (hv : c ∉ v)
    (hc : c ≠ '=') : c ∉ k ++ '=' :: v := by
  intro h
  rcases List.mem_append.mp h with h | h
  · exact hk h
  · rcases List.mem_cons.mp h with h | h
    · exact hc h
    · exact hv h

/-- A well-formed line ends in its value's last character (or in `'='`),
never in whitespace. -/
theorem endsOk_line {k v : Str} (hv : endsOk v = true) :
    endsOk (k ++ '=' :: v) = true := by
  rw [endsOk, List.reverse_append, List.reverse_cons]
  cases hr : v.reverse with
  | nil =>
    simp
    decide
  | cons c t =>
    rw [endsOk, hr] at hv
    simpa using hv

/-! ## Legacy round-trip -/

/-- The separator `'='` occurs in every non-empty joined key-value file. -/
theorem eq_mem_joinKV (f : Str × Str) (rest : List (Str × Str)) :
    '=' ∈ joinKV (f :: rest) := by
  rw [joinKV, List.map_cons, List.flatten_cons]
  refine List.mem_append.mpr (Or.inl ?_)
  exact List.mem_append.mpr (Or.inr (List.mem_cons_self '=' _))

/-- Stripping, de-CR-ing and line-splitting the joined key-value file of
well-formed entries recovers exactly one line per entry. -/
theorem splitParse_joinKV :
    ∀ (entries : List (Str × Str)), entries ≠ [] →
      (∀ p ∈ entries, wfKey p.1 ∧ wfVal p.2) →
      splitOnChar '\n' (removeCR (rstrip (joinKV entries)))
        = entries.map (fun p => p.1 ++ '=' :: p.2) := by
  intro entries
  induction entries with
  | nil => intro h; exact absurd rfl h
  | cons e rest ih =>
    intro _ hwf
    obtain ⟨hke, hve⟩ := hwf e (List.mem_cons_self e rest)
    have hnoCr : '\r' ∉ e.1 ++ '=' :: e.2 :=
      not_mem_line hke.2.2 hve.2.1 (by decide)
    have hnoNl : '\n' ∉ e.1 ++ '=' :: e.2 :=
      not_mem_line hke.2.1 hve.1 (by decide)
    cases rest with
    | nil =>
      have hjoin : joinKV [e] = (e.1 ++ '=' :: e.2) ++ ['\n'] := by
        simp [joinKV]
      rw [hjoin, rstrip_append_newline (endsOk_line hve.2.2),
        removeCR_eq_self hnoCr, splitOnChar_of_not_mem hnoNl]
      simp
    | cons f rest' =>
      have hwfr : ∀ p ∈ f :: rest', wfKey p.1 ∧ wfVal p.2 :=
        fun p hp => hwf p (List.mem_cons_of_mem e hp)
      have hjoin : joinKV (e :: f :: rest')
          = ((e.1 ++ '=' :: e.2) ++ ['\n']) ++ joinKV (f :: rest') := by
        simp [joinKV]
      have hnoCrNl : '\r' ∉ (e.1 ++ '=' :: e.2) ++ ['\n'] := by
        intro hm
        rcases List.mem_append.mp hm with hm | hm
        · exact hnoCr hm
        · rcases List.mem_cons.mp hm with hm | hm
          · cases hm
          · cases hm
      rw [hjoin,
        rstrip_append (joinKV (f :: rest')) ⟨'=', eq_mem_joinKV f rest', by decide⟩,
        removeCR_append_left _ hnoCrNl,
        splitOnChar_append_sep _ hnoNl,
        ih (List.cons_ne_nil f rest') hwfr]
      rfl

/-- Decoding the joined key-value file of well-formed entries builds the
dict of the entries (later duplicate keys overriding earlier ones). -/
theorem legacyLoadStr_joinKV (entries : List (Str × Str))
    (hwf : ∀ p ∈ entries, wfKey p.1 ∧ wfVal p.2) :
    legacyLoadStr (joinKV entries) = mkDict entries := by
  cases entries with
  | nil => rfl
  | cons e rest =>
    rw [legacyLoadStr, splitParse_joinKV (e :: rest) (List.cons_ne_nil e rest) hwf]
    have hfil : ((e :: rest).map (fun p => p.1 ++ '=' :: p.2)).filter
        (fun l => !l.isEmpty) = (e :: rest).map (fun p => p.1 ++ '=' :: p.2) := by
      rw [List.filter_eq_self]
      intro a ha
      obtain ⟨p, _, hp⟩ := List.mem_map.mp ha
      rw [← hp]
      cases hfst : p.1 <;> simp
    rw [hfil, List.map_map]
    have hmap : ∀ p ∈ (e :: rest),
        (partitionEq ∘ fun p => p.1 ++ '=' :: p.2) p = p := by
      intro p hp
      have hk := (hwf p hp).1
      simp only [Function.comp_apply]
      rw [partitionEq_append p.2 hk.1]
    rw [List.map_congr_left hmap]
    simp

/-- The legacy codec round-trips a well-formed map into its key-sorted
entry list. -/
theorem legacy_roundtrip_sorted {m : List (Str × Str)} (hwf : wfLegacy m) :
    legacyLoadStr (legacyDumpStr m) = sortPairs m := by
  rw [legacyDumpStr,
    legacyLoadStr_joinKV (sortPairs m) (fun p hp => hwf.2 p ((sortPairs_perm m).subset hp))]
  exact mkDict_eq_self (((sortPairs_perm m).map Prod.fst).nodup_iff.mpr hwf.1)

/-- Legacy decode-of-encode, through the codec's format dispatch. -/
theorem load_dump_legacy {m : List (Str × Str)} (f : Nat) (hf : f < 4)
    (hwf : wfLegacy m) :
    load_language (dump_language m f) f = some (sortPairs m) := by
  have h4 : ¬ f ≥ 4 := by omega
  rw [dump_language, if_neg h4, load_language, if_neg h4]
  show some (legacyLoadStr (legacyDumpStr m)) = some (sortPairs m)
  rw [legacy_roundtrip_sorted hwf]

/-! ## Claims C3, C6, C10 -/

/-- **C3** (counterexample): the legacy round-trip fails on the map
`{"k": "v "}` although its key contains no `'='` and its value no newline:
the final `rstrip` of decode eats the value's trailing space, so the
decoded dict differs from the original at key `"k"`. -/
theorem legacy_roundtrip_trailing_space_cex :
    load_language (dump_language [("k".toList, "v ".toList)] 3) 3
      = some [("k".toList, "v".toList)] ∧
    dictGet [("k".toList, "v".toList)] ("k".toList)
      ≠ dictGet [("k".toList, "v ".toList)] ("k".toList) :=
  ⟨by decide, by decide⟩

/-- **C3** (amended): for every pack format below the structured threshold
(`f < 4`) and every translation map with unique keys, whose keys contain no
`'='`, no newline and no carriage return, and whose values contain no
newline, no carriage return and no trailing whitespace, decoding the
encoding round-trips to a dict equal (as a Python dict) to the original. -/
theorem legacy_roundtrip_amended (f : Nat) (m : List (Str × Str))
    (hf : f < 4) (hwf : wfLegacy m) :
    ∃ d, load_language (dump_language m f) f = some d ∧ pyDictEq d m :=
  ⟨sortPairs m, load_dump_legacy f hf hwf,
    fun k => dictGet_perm (sortPairs_perm m)
      (((sortPairs_perm m).map Prod.fst).nodup_iff.mpr hwf.1) k⟩

/-- Witness for **C3** at pack format 3 and a one-entry well-formed map. -/
theorem legacy_roundtrip_amended_witness :
    (3 < 4 ∧ wfLegacy [("subtitles.block.anvil.land".toList, "Anvil lands".toList)]) ∧
    ∃ d, load_language
        (dump_language [("subtitles.block.anvil.land".toList, "Anvil lands".toList)] 3) 3
        = some d
      ∧ pyDictEq d [("subtitles.block.anvil.land".toList, "Anvil lands".toList)] :=
  ⟨⟨by decide, by decide⟩,
    legacy_roundtrip_amended 3 _ (by decide) (by decide)⟩

/-- **C6** (counterexample): a legacy line with no `'='` separator is not a
fatal error: decoding `"abc"` at pack format 3 succeeds and produces the
entry `("abc", "")`. -/
theorem legacy_no_eq_line_not_fatal_cex :
    load_language (.raw ("abc".toList)) 3 = some [("abc".toList, [])] := by
  decide

/-- **C6** (amended): during legacy decode (pack format < 4), a non-blank
line containing no `'='` separator is not an error: it produces the entry
binding the whole line to the empty string. -/
theorem legacy_no_eq_line_entry (f : Nat) (line : Str) (hf : f < 4)
    (hne : line ≠ []) (heq : '=' ∉ line) (hnl : '\n' ∉ line) (hcr : '\r' ∉ line)
    (hend : endsOk line = true) :
    load_language (.raw line) f = some [(line, [])] := by
  have h4 : ¬ f ≥ 4 := by omega
  rw [load_language, if_neg h4]
  show some (legacyLoadStr line) = some [(line, [])]
  rw [legacyLoadStr, rstrip_of_endsOk hend, removeCR_eq_self hcr,
    splitOnChar_of_not_mem hnl]
  have hfil : ([line]).filter (fun l => !l.isEmpty) = [line] := by
    rw [List.filter_eq_self]
    intro a ha
    rw [List.mem_singleton.mp ha]
    cases hl : line with
    | nil => exact absurd hl hne
    | cons c cs => simp
  rw [hfil, List.map_singleton, partitionEq_no_eq heq]
  rfl

/-- Witness for **C6** at pack format 2 and the separator-free line
`"xyz"`. -/
theorem legacy_no_eq_line_entry_witness :
    load_language (.raw ("xyz".toList)) 2 = some [("xyz".toList, [])] :=
  legacy_no_eq_line_entry 2 ("xyz".toList) (by decide) (by decide) (by decide)
    (by decide) (by decide) (by decide)

/-- **C10**: in legacy decode (pack format < 4), a content made of several
`key=value` lines binds each key to the value of the LAST line carrying it:
decoding the joined lines builds `mkDict` of the pairs, and `mkDict` keeps,
for every key, the value of its last binding. -/
theorem legacy_duplicate_last_wins (f : Nat) (ps : List (Str × Str))
    (hf : f < 4) (hwf : ∀ p ∈ ps, wfKey p.1 ∧ wfVal p.2) :
    load_language (.raw (joinKV ps)) f = some (mkDict ps) ∧
    ∀ k, dictGet (mkDict ps) k
      = (ps.reverse.find? (fun p => p.1 == k)).map Prod.snd := by
  have h4 : ¬ f ≥ 4 := by omega
  refine ⟨?_, dictGet_mkDict ps⟩
  rw [load_language, if_neg h4]
  show some (legacyLoadStr (joinKV ps)) = some (mkDict ps)
  rw [legacyLoadStr_joinKV ps hwf]

/-- Witness for **C10**: the two lines `a=1` and `a=2` decode to a dict
binding `"a"` to `"2"`. -/
theorem legacy_duplicate_last_wins_witness :
    load_language (.raw (joinKV [("a".toList, "1".toList), ("a".toList, "2".toList)])) 3
      = some (mkDict [("a".toList, "1".toList), ("a".toList, "2".toList)]) ∧
    dictGet (mkDict [("a".toList, "1".toList), ("a".toList, "2".toList)]) ("a".toList)
      = some ("2".toList) := by
  have h := legacy_duplicate_last_wins 3
    [("a".toList, "1".toList), ("a".toList, "2".toList)] (by decide) (by decide)
  exact ⟨h.1, (h.2 ("a".toList)).trans (by decide)⟩

/-! ## The color-rule engine -/

/-- Full characterization of a successful `apply_colors` run: every value
gets the code of its selected color prepended (or stays unchanged), and the
unhandled list collects exactly the `subtitles.`-prefixed keys with no
selected color. -/
theorem apply_colors_ok_spec (colors : List (Str × Str)) :
    ∀ (m m' : List (Str × Str)) (u : List Str),
      apply_colors colors m = .ok (m', u) →
      m' = m.map (fun p => (p.1,
          (select_color colors p.1).elim p.2
            (fun c => ((dictGet color_codes c).getD []) ++ p.2))) ∧
      u = (m.map Prod.fst).filter
          (fun k => (select_color colors k).isNone
            && ("subtitles.".toList).isPrefixOf k) := by
  intro m
  induction m with
  | nil =>
    intro m' u h
    simp only [apply_colors, Except.ok.injEq, Prod.mk.injEq] at h
    obtain ⟨h1, h2⟩ := h
    subst h1
    subst h2
    exact ⟨rfl, rfl⟩
  | cons p rest ih =>
    intro m' u h
    obtain ⟨key, value⟩ := p
    cases hs : select_color colors key with
    | some c =>
      cases hg : dictGet color_codes c with
      | some code =>
        cases ha : apply_colors colors rest with
        | ok mu =>
          obtain ⟨m1, u1⟩ := mu
          have hstep : apply_colors colors ((key, value) :: rest)
              = .ok ((key, code ++ value) :: m1, u1) := by
            simp [apply_colors, hs, hg, ha]
          rw [hstep] at h
          simp only [Except.ok.injEq, Prod.mk.injEq] at h
          obtain ⟨h1, h2⟩ := h
          subst h1
          subst h2
          obtain ⟨ih1, ih2⟩ := ih m1 u1 ha
          constructor
          · rw [List.map_cons, ← ih1]
            simp [hs, hg]
          · rw [List.map_cons, List.filter_cons,
              if_neg (show ¬ (((select_color colors key).isNone
                && ("subtitles.".toList).isPrefixOf key) = true) by
                  rw [hs]; simp), ← ih2]
        | error e =>
          have hstep : apply_colors colors ((key, value) :: rest) = .error e := by
            simp [apply_colors, hs, hg, ha]
          rw [hstep] at h
          exact Except.noConfusion h
      | none =>
        have hstep : apply_colors colors ((key, value) :: rest) = .error c := by
          simp [apply_colors, hs, hg]
        rw [hstep] at h
        exact Except.noConfusion h
    | none =>
      cases ha : apply_colors colors rest with
      | ok mu =>
        obtain ⟨m1, u1⟩ := mu
        obtain ⟨ih1, ih2⟩ := ih m1 u1 ha
        by_cases hp : (("subtitles.".toList).isPrefixOf key) = true
        · have hstep : apply_colors colors ((key, value) :: rest)
              = .ok ((key, value) :: m1, key :: u1) := by
            simp [apply_colors, hs, ha, -List.isPrefixOf_iff_prefix]
            exact hp
          rw [hstep] at h
          simp only [Except.ok.injEq, Prod.mk.injEq] at h
          obtain ⟨h1, h2⟩ := h
          subst h1
          subst h2
          constructor
          · rw [List.map_cons, ← ih1]
            simp [hs]
          · rw [List.map_cons, List.filter_cons,
              if_pos (show ((select_color colors key).isNone
                && ("subtitles.".toList).isPrefixOf key) = true by
                  rw [hs, hp]; decide),
              ← ih2]
        · have hp' : (("subtitles.".toList).isPrefixOf key) = false :=
            Bool.eq_false_iff.mpr hp
          have hstep : apply_colors colors ((key, value) :: rest)
              = .ok ((key, value) :: m1, u1) := by
            simp [apply_colors, hs, ha, -List.isPrefixOf_iff_prefix]
            exact hp'
          rw [hstep] at h
          simp only [Except.ok.injEq, Prod.mk.injEq] at h
          obtain ⟨h1, h2⟩ := h
          subst h1
          subst h2
          constructor
          · rw [List.map_cons, ← ih1]
            simp [hs]
          · rw [List.map_cons, List.filter_cons,
              if_neg (show ¬ (((select_color colors key).isNone
                && ("subtitles.".toList).isPrefixOf key) = true) by
                  rw [hs, hp']; decide), ← ih2]
      | error e =>
        have hstep : apply_colors colors ((key, value) :: rest) = .error e := by
          simp [apply_colors, hs, ha]
        rw [hstep] at h
        exact Except.noConfusion h

/-! ## Claims C8, C9 -/

/-- **C8**: a successful transform preserves the key list of the map
exactly, and encoding preserves the keys: structured encoding stores the
transformed map itself, and legacy encoding (on a well-formed map) decodes
back to the key-sorted entries, a permutation of the same keys. -/
theorem transform_encode_preserves_keys (colors : List (Str × Str))
    (m m' : List (Str × Str)) (u : List Str)
    (h : apply_colors colors m = .ok (m', u)) :
    m'.map Prod.fst = m.map Prod.fst ∧
    (∀ f, 4 ≤ f → dump_language m' f = Content.structured m') ∧
    (∀ f, f < 4 → wfLegacy m' →
      load_language (dump_language m' f) f = some (sortPairs m') ∧
      ((sortPairs m').map Prod.fst).Perm (m'.map Prod.fst)) := by
  refine ⟨?_, ?_, ?_⟩
  · rw [(apply_colors_ok_spec colors m m' u h).1, List.map_map]
    rfl
  · intro f hf
    rw [dump_language, if_pos hf]
  · intro f hf hwf
    exact ⟨load_dump_legacy f hf hwf, (sortPairs_perm m').map Prod.fst⟩

/-- Witness for **C8**: one subtitle key colored red; keys preserved and
the legacy encoding round-trips. -/
theorem transform_encode_preserves_keys_witness :
    ([("subtitles.ambient.cave".toList, "§cx".toList)]).map Prod.fst
      = ([("subtitles.ambient.cave".toList, "x".toList)]).map Prod.fst ∧
    load_language (dump_language [("subtitles.ambient.cave".toList, "§cx".toList)] 3) 3
      = some (sortPairs [("subtitles.ambient.cave".toList, "§cx".toList)]) := by
  have h := transform_encode_preserves_keys [("subtitles.".toList, "red".toList)]
    [("subtitles.ambient.cave".toList, "x".toList)]
    [("subtitles.ambient.cave".toList, "§cx".toList)] [] (by rfl)
  exact ⟨h.1, (h.2.2 3 (by decide) (by decide)).1⟩

/-- **C9**: a key selected by no rule and not carrying the `subtitles.`
prefix keeps its binding byte-identically and is never recorded as
unhandled. -/
theorem non_subtitle_key_untouched (colors : List (Str × Str))
    (m m' : List (Str × Str)) (u : List Str) (key value : Str)
    (h : apply_colors colors m = .ok (m', u))
    (hmem : (key, value) ∈ m)
    (hsel : select_color colors key = none)
    (hsub : (("subtitles.".toList).isPrefixOf key) = false) :
    (key, value) ∈ m' ∧ key ∉ u := by
  obtain ⟨hm, hu⟩ := apply_colors_ok_spec colors m m' u h
  constructor
  · rw [hm]
    have himg : (fun p : Str × Str => (p.1,
        (select_color colors p.1).elim p.2
          (fun c => ((dictGet color_codes c).getD []) ++ p.2))) (key, value)
        = (key, value) := by
      simp [hsel]
    exact himg ▸ List.mem_map_of_mem _ hmem
  · rw [hu]
    intro hk
    have h2 := List.of_mem_filter hk
    rw [Bool.and_eq_true] at h2
    have h3 := h2.2
    rw [hsub] at h3
    exact Bool.noConfusion h3

/-- Witness for **C9**: `"gui.done"` is untouched and unflagged under the
rule list `[("subtitles.", "red")]`. -/
theorem non_subtitle_key_untouched_witness :
    ("gui.done".toList, "Done".toList) ∈ [("gui.done".toList, "Done".toList)] ∧
    ("gui.done".toList) ∉ ([] : List Str) :=
  non_subtitle_key_untouched [("subtitles.".toList, "red".toList)]
    [("gui.done".toList, "Done".toList)] [("gui.done".toList, "Done".toList)] []
    ("gui.done".toList) ("Done".toList) (by rfl) (by decide) (by decide) (by decide)

/-! ## Claim C7 -/

/-- When the per-asset loop aborts on an unknown color, the entries written
so far are exactly one per asset fully processed before the failing one. -/
theorem processLanguages_unknownColor (pack_format : Nat)
    (colors : List (Str × Str)) :
    ∀ (langs : List (Str × Content)) (c : Str),
      (processLanguages pack_format colors langs).2.2 = some (.unknownColor c) →
      (processLanguages pack_format colors langs).1.length < langs.length ∧
      (processLanguages pack_format colors langs).1.map Prod.fst
        = (langs.take ((processLanguages pack_format colors langs).1.length)).map
            (fun l => "assets/".toList ++ l.1) := by
  intro langs
  induction langs with
  | nil => intro c h; simp [processLanguages] at h
  | cons a rest ih =>
    intro c h
    obtain ⟨path, content⟩ := a
    cases hl : load_language content pack_format with
    | none => simp [processLanguages, hl] at h
    | some translation =>
      cases ha : apply_colors colors translation with
      | error e =>
        simp only [processLanguages, hl, ha] at h ⊢
        exact ⟨Nat.succ_pos _, rfl⟩
      | ok tu =>
        simp only [processLanguages, hl, ha] at h ⊢
        obtain ⟨ih1, ih2⟩ := ih c h
        refine ⟨by simpa using Nat.succ_lt_succ ih1, ?_⟩
        simp only [List.map_cons, List.length_cons, List.take_succ_cons]
        rw [ih2]

/-- **C7** (counterexample): with a rule naming the unknown color
`"badcolor"` and one asset containing a matching key, the build fails, yet
at the moment of failure the archive already holds the `pack.mcmeta`
entry — so "no archive entry exists" is false. -/
theorem unknown_color_metadata_written_cex :
    (generate_pack ("1.19".toList)
        [("minecraft/lang/en_us.json".toList,
          Content.structured [("subtitles.ambient.cave".toList, "x".toList)])]
        [("subtitles.".toList, "badcolor".toList)])
      = ([("pack.mcmeta".toList, Content.mcmeta 9 ("By Kosmolot".toList))],
          some (.unknownColor ("badcolor".toList))) ∧
    ([("pack.mcmeta".toList, Content.mcmeta 9 ("By Kosmolot".toList))] :
        List (Str × Content)) ≠ [] :=
  ⟨by decide, by decide⟩

/-- **C7** (amended): whenever a build fails because a rule selected a
color name absent from the color-code table, the archive holds at that
moment exactly the metadata entry plus one entry per asset fully processed
before the failing one — the failing asset (and every later one) has no
entry written. -/
theorem unknown_color_fatal_before_asset_entry (version : Str)
    (langs : List (Str × Content)) (colors : List (Str × Str))
    (es : List (Str × Content)) (c : Str)
    (h : generate_pack version langs colors = (es, some (.unknownColor c))) :
    es.length - 1 < langs.length ∧
    es.map Prod.fst = ("pack.mcmeta".toList)
      :: ((langs.take (es.length - 1)).map (fun l => "assets/".toList ++ l.1)) := by
  cases hr : resolve_pack_format version with
  | none => simp [generate_pack, hr] at h
  | some pf =>
    simp only [generate_pack, hr, Prod.mk.injEq] at h
    obtain ⟨h1, h2⟩ := h
    obtain ⟨hl1, hl2⟩ := processLanguages_unknownColor pf colors langs c h2
    rw [← h1]
    simp only [List.length_cons, Nat.add_sub_cancel, List.map_cons]
    exact ⟨hl1, by rw [hl2]⟩

/-- Witness for **C7**: at the counterexample input the failing build has
written exactly the metadata entry and no asset entry. -/
theorem unknown_color_fatal_witness :
    ([("pack.mcmeta".toList, Content.mcmeta 9 ("By Kosmolot".toList))] :
        List (Str × Content)).length - 1 < 1 ∧
    ([("pack.mcmeta".toList, Content.mcmeta 9 ("By Kosmolot".toList))] :
        List (Str × Content)).map Prod.fst
      = ("pack.mcmeta".toList)
        :: ((([("minecraft/lang/en_us.json".toList,
              Content.structured [("subtitles.ambient.cave".toList, "x".toList)])] :
              List (Str × Content)).take
            (([("pack.mcmeta".toList, Content.mcmeta 9 ("By Kosmolot".toList))] :
              List (Str × Content)).length - 1)).map
          (fun l => "assets/".toList ++ l.1)) :=
  unknown_color_fatal_before_asset_entry ("1.19".toList)
    [("minecraft/lang/en_us.json".toList,
      Content.structured [("subtitles.ambient.cave".toList, "x".toList)])]
    [("subtitles.".toList, "badcolor".toList)]
    [("pack.mcmeta".toList, Content.mcmeta 9 ("By Kosmolot".toList))]
    ("badcolor".toList) (by decide)

end ColoredSubtitles
